import Mathlib

/-!
Shallow embedding of `pypiserver/core.py` (minimal PyPI-like server core).

Python strings are modelled as Lean `String` / `List Char` (code points);
Python string comparison, `str.zfill`, `str.rstrip`, `str.lower`,
`os.path.basename` and the concrete regular expressions of the source are
embedded as executable Lean functions below.  Regex semantics are modelled
for the exact patterns appearing in the source, including the
leftmost-match and lazy/greedy backtracking priorities that decide which
groups the Python `re` engine reports.
-/

/-- ASCII decimal digit, the `\d` class of the source's patterns. -/
def isDigitC (c : Char) : Bool := '0' ≤ c && c ≤ '9'

/-- ASCII letter: the `[a-z]` class under `re.I`. -/
def isAlphaC (c : Char) : Bool := ('a' ≤ c && c ≤ 'z') || ('A' ≤ c && c ≤ 'Z')

/-- Python string `<` on code-point lists (lexicographic, shorter prefix first). -/
def chLt : List Char → List Char → Bool
  | [], [] => false
  | [], _ :: _ => true
  | _ :: _, [] => false
  | a :: as, b :: bs => if a < b then true else if b < a then false else chLt as bs

/-- Python string `<`. -/
def strLtB (a b : String) : Bool := chLt a.data b.data

/-- Python tuple-of-strings `<`: pointwise lexical tuple comparison. -/
def keyLt : List String → List String → Bool
  | [], [] => false
  | [], _ :: _ => true
  | _ :: _, [] => false
  | a :: as, b :: bs => if strLtB a b then true else if strLtB b a then false else keyLt as bs

/-- Python `str.lower()` restricted to ASCII case mapping. -/
def pyLower (s : String) : String := String.mk (s.data.map Char.toLower)

/-- State of the `component_re.split` scanner: accumulating a gap of
non-matching characters, a maximal digit run, or a maximal letter run. -/
inductive SMode | gap | dig | alf
deriving DecidableEq

/-- One-pass scanner implementing `re.split` for
`component_re = (\d+ | [a-z]+ | \.| -)` (`re.I | re.VERBOSE`): emits the
interleaved non-matching gaps (possibly empty) and matched tokens, exactly
as `re.split` with a capturing group does.  `cur` is the reversed pending
gap or run. -/
def sgo (m : SMode) (cur : List Char) (l : List Char) : List (List Char) :=
  match l with
  | [] =>
    match m with
    | .gap => [cur.reverse]
    | _ => [cur.reverse, []]
  | c :: cs =>
    match m with
    | .gap =>
      if isDigitC c then cur.reverse :: sgo .dig [c] cs
      else if isAlphaC c then cur.reverse :: sgo .alf [c] cs
      else if c = '.' || c = '-' then cur.reverse :: [c] :: sgo .gap [] cs
      else sgo .gap (c :: cur) cs
    | .dig =>
      if isDigitC c then sgo .dig (c :: cur) cs
      else if isAlphaC c then cur.reverse :: [] :: sgo .alf [c] cs
      else if c = '.' || c = '-' then cur.reverse :: [] :: [c] :: sgo .gap [] cs
      else cur.reverse :: sgo .gap [c] cs
    | .alf =>
      if isDigitC c then cur.reverse :: [] :: sgo .dig [c] cs
      else if isAlphaC c then sgo .alf (c :: cur) cs
      else if c = '.' || c = '-' then cur.reverse :: [] :: [c] :: sgo .gap [] cs
      else cur.reverse :: sgo .gap [c] cs

/-- `component_re.split(s)`. -/
def componentSplit (l : List Char) : List (List Char) := sgo .gap [] l

/-- The `replace` lookup:
`{"pre": "c", "preview": "c", "-": "final-", "rc": "c", "dev": "@"}.get(part, part)`. -/
def replaceTok (s : String) : String :=
  if s = "pre" then "c" else if s = "preview" then "c"
  else if s = "-" then "final-" else if s = "rc" then "c"
  else if s = "dev" then "@" else s

/-- Python `str.zfill(8)` on a digit-run token. -/
def zfill8 (s : String) : String :=
  if s.length < 8 then String.mk (List.replicate (8 - s.length) '0') ++ s else s

/-- `part[:1] in "0123456789"` for a nonempty part. -/
def startsWithDigit (s : String) : Bool :=
  match s.data with
  | [] => false
  | c :: _ => isDigitC c

/-- `part.startswith("*")`. -/
def startsWithStar (s : String) : Bool :=
  match s.data with
  | [] => false
  | c :: _ => c = '*'

/-- `_parse_version_parts(s)` from `core.py`: split on the component regex,
apply the `replace` map, drop `""` and `"."`, zero-pad numeric parts to
width 8, star-prefix the others, and append the terminal `"*final"`. -/
def _parse_version_parts (s : String) : List String :=
  ((((componentSplit s.data).map String.mk).map replaceTok).filter
      (fun p => !(p = "" || p = "."))).map
    (fun p => if startsWithDigit p then zfill8 p else "*" ++ p)
  ++ ["*final"]

/-- The `while parts and parts[-1] == "00000000": parts.pop()` loop, acting on
the reversed accumulator (head = last appended part). -/
def dropZeros : List String → List String
  | [] => []
  | a :: rest => if a = "00000000" then dropZeros rest else a :: rest

/-- Accumulating loop of `parse_version`; `acc` is the reversed `parts` list. -/
def pvGo (acc : List String) : List String → List String
  | [] => acc.reverse
  | p :: ps =>
    if startsWithStar p then pvGo (p :: dropZeros acc) ps
    else pvGo (p :: acc) ps

/-- `parse_version(s)` from `core.py` (returns the key tuple as a list). -/
def parse_version (s : String) : List String := pvGo [] (_parse_version_parts (pyLower s))

/-- The character class `[-_.]` of the PEP 503 normalization pattern. -/
def isSepC (c : Char) : Bool := c = '-' || c = '_' || c = '.'

/-- `re.sub(r"[-_.]+", "-", name)`: collapse each maximal run of separator
characters into a single `-`.  `inRun` records whether the previous character
belonged to a separator run already replaced. -/
def collapseGo (inRun : Bool) : List Char → List Char
  | [] => []
  | c :: cs =>
    if isSepC c then
      (if inRun then collapseGo true cs else '-' :: collapseGo true cs)
    else c :: collapseGo false cs

/-- `normalize_pkgname(name)` from `core.py`: PEP 503 normalization. -/
def normalize_pkgname (s : String) : String := pyLower (String.mk (collapseGo false s.data))

/-- Case-insensitive character equality (`re.I`, ASCII). -/
def lcEq (a b : Char) : Bool := a.toLower = b.toLower

/-- The remaining input matches the literal `pat` case-insensitively and ends
there (a literal alternative directly before the `$` anchor). -/
def exactCI : List Char → List Char → Bool
  | [], [] => true
  | p :: ps, c :: cs => lcEq p c && exactCI ps cs
  | _, _ => false

/-- Consume the literal `pat` case-insensitively from the front, returning the
rest of the input. -/
def startsCI : List Char → List Char → Option (List Char)
  | [], cs => some cs
  | _ :: _, [] => none
  | p :: ps, c :: cs => if lcEq p c then startsCI ps cs else none

/-- The alternative `-py[23]\.\d-.*$` of `_archive_suffix_rx`, tested at the
current position. -/
def pyTailAlt (l : List Char) : Bool :=
  match l with
  | a :: p :: y :: c :: dot :: d :: dash :: _ =>
    a = '-' && lcEq 'p' p && lcEq 'y' y && (c = '2' || c = '3') && dot = '.' &&
      isDigitC d && dash = '-'
  | _ => false

/-- The alternatives `\.win-amd64-py[23]\.\d\..*$` and `\.win32-py[23]\.\d\..*$`
(`pre` is the literal part up to `py`). -/
def winTailAlt (lit : List Char) (l : List Char) : Bool :=
  match startsCI lit l with
  | some (c :: d1 :: d :: d2 :: _) =>
    (c = '2' || c = '3') && d1 = '.' && isDigitC d && d2 = '.'
  | _ => false

/-- Does some alternative of `_archive_suffix_rx` match starting at this
position (every alternative of that pattern extends to the end of the
string because of the `$` anchor)? -/
def archiveAt (l : List Char) : Bool :=
  exactCI ".zip".data l || exactCI ".tar.gz".data l || exactCI ".tgz".data l ||
  exactCI ".tar.bz2".data l || pyTailAlt l ||
  winTailAlt ".win-amd64-py".data l || winTailAlt ".win32-py".data l ||
  exactCI ".egg".data l

/-- `_archive_suffix_rx.search(path) is not None`: scan positions left to
right. -/
def archiveSearch (l : List Char) : Bool :=
  match l with
  | [] => false
  | _ :: cs => archiveAt l || archiveSearch cs

/-- `_archive_suffix_rx.sub("", path)`: every match runs to the end of the
string, so substitution keeps the part strictly before the leftmost match. -/
def archiveSub (l : List Char) : List Char :=
  match l with
  | [] => []
  | c :: cs => if archiveAt (c :: cs) then [] else c :: archiveSub cs

/-- All decompositions `l = before ++ '-' :: after`, in leftmost-dash-first
order (the backtracking order of a lazy subpattern followed by `-`). -/
def splitAtDashes : List Char → List (List Char × List Char)
  | [] => []
  | c :: cs =>
    (if c = '-' then [(([] : List Char), cs)] else []) ++
      (splitAtDashes cs).map (fun p => (c :: p.1, p.2))

/-- `l = plat ++ ".whl"` for a nonempty `plat` (the `(?P<plat>.+?)\.whl$`
tail: the literal must occupy the final four characters). -/
def endsWithWhl (l : List Char) : Bool :=
  decide (5 ≤ l.length) && l.drop (l.length - 4) == ".whl".data

/-- `l` matches `(?P<pyver>.+?)-(?P<abi>.+?)-(?P<plat>.+?)\.whl$` (existence
only: the group boundaries inside do not affect the reported name/ver/build). -/
def papWhl (l : List Char) : Bool :=
  (splitAtDashes l).any (fun p =>
    !p.1.isEmpty && (splitAtDashes p.2).any (fun q => !q.1.isEmpty && endsWithWhl q.2))

/-- Lazy search for the optional build group: the first (shortest) split
`m = build ++ '-' :: rest` with `build` starting with a digit and `rest`
matching the pyver-abi-plat tail. -/
def findBuild (m : List Char) : Option (List Char) :=
  (splitAtDashes m).findSome? (fun p =>
    match p.1 with
    | c :: _ => if isDigitC c && papWhl p.2 then some p.1 else none
    | [] => none)

/-- Match of `((-(?P<build>\d.*?))?-(?P<pyver>.+?)-(?P<abi>.+?)-(?P<plat>.+?)
\.whl|\.dist-info)$` against the input after the `ver` group.  Returns
`some (some build)` / `some none` on success, `none` on failure; the greedy
`?` prefers a present build group. -/
def wheelAfterVer (l : List Char) : Option (Option (List Char)) :=
  match l with
  | c :: m =>
    if c = '-' then
      match findBuild m with
      | some b => some (some b)
      | none => if papWhl m then some none else none
    else if c :: m = ".dist-info".data then some none else none
  | [] => none

/-- Lazy extension of the `ver` group (`\d.*?`): `acc` is the reversed part
matched so far; try the shortest extension first. -/
def verGo (acc : List Char) : List Char → Option (List Char × Option (List Char))
  | [] => none
  | c :: cs =>
    match wheelAfterVer (c :: cs) with
    | some b => some (acc.reverse, b)
    | none => verGo (c :: acc) cs

/-- The `ver` group `(?P<ver>\d.*?)`: must start with a digit. -/
def verTrials : List Char → Option (List Char × Option (List Char))
  | [] => none
  | c :: cs => if isDigitC c then verGo [c] cs else none

/-- `wheel_file_re.match(basename)`: the lazy `(?P<name>.+?)-` group tries
each dash split of the input from the left; returns the `name`, `ver` and
optional `build` groups of the match the `re` engine reports. -/
def wheelMatch (l : List Char) : Option (List Char × List Char × Option (List Char)) :=
  (splitAtDashes l).findSome? (fun p =>
    if p.1.isEmpty then none
    else
      match verTrials p.2 with
      | some (v, b) => some (p.1, v, b)
      | none => none)

/-- Result of `guess_pkgname_and_version`: Python's bare `None`, or a pair
whose components may each be `None` (the failed-wheel branch returns
`(None, None)`). -/
inductive GuessResult
  | none_
  | pair (pkgname version : Option String)
deriving DecidableEq

/-- Python truthiness of a `GuessResult`: `None` is falsy, any tuple
(including `(None, None)`) is truthy. -/
def pyTruthy : GuessResult → Bool
  | .none_ => false
  | .pair _ _ => true

/-- `_guess_pkgname_and_version_wheel(basename)` from `core.py`. -/
def _guess_pkgname_and_version_wheel (basename : List Char) : GuessResult :=
  match wheelMatch basename with
  | none => .pair none none
  | some (n, v, b) =>
    match b with
    | some bb =>
      if bb.isEmpty then .pair (some (String.mk n)) (some (String.mk v))
      else .pair (some (String.mk n)) (some (String.mk (v ++ '-' :: bb)))
    | none => .pair (some (String.mk n)) (some (String.mk v))

/-- `os.path.basename` (POSIX): the part after the last `/`. -/
def basenameC (l : List Char) : List Char := ((l.reverse.takeWhile (· ≠ '/')).reverse)

/-- Python `str.rstrip(chars)`: remove the maximal trailing run of characters
drawn from the set `chars`. -/
def pyRstrip (chars : List Char) (s : List Char) : List Char :=
  (s.reverse.dropWhile (fun c => c ∈ chars)).reverse

/-- `path.endswith(suf)`. -/
def endsWith (suf l : List Char) : Bool := suf.isSuffixOf l

/-- The split `-\d+[a-z_.!+]` of `_pkgname_re` matches at this position:
a dash, a (maximal) nonempty digit run, then one character of the class. -/
def isMarkC (c : Char) : Bool := isAlphaC c || c = '_' || c = '.' || c = '!' || c = '+'

def pkgnameSplitAt : List Char → Bool
  | '-' :: c :: cs =>
    isDigitC c &&
      (match cs.dropWhile isDigitC with
       | m :: _ => isMarkC m
       | [] => false)
  | _ => false

/-- `_pkgname_re.split(path)[0]`: the text before the first match (the whole
string when there is none). -/
def pkgnameTake : List Char → List Char
  | [] => []
  | c :: cs => if pkgnameSplitAt (c :: cs) then [] else c :: pkgnameTake cs

/-- The lookahead `(?=cp\d|py\d|macosx|linux|sunos|solaris|irix|aix|cygwin|win)`
of `_pkgname_parts_re` holds at this position. -/
def tagAhead (l : List Char) : Bool :=
  (match startsCI "cp".data l with | some (d :: _) => isDigitC d | _ => false) ||
  (match startsCI "py".data l with | some (d :: _) => isDigitC d | _ => false) ||
  (startsCI "macosx".data l).isSome || (startsCI "linux".data l).isSome ||
  (startsCI "sunos".data l).isSome || (startsCI "solaris".data l).isSome ||
  (startsCI "irix".data l).isSome || (startsCI "aix".data l).isSome ||
  (startsCI "cygwin".data l).isSome || (startsCI "win".data l).isSome

/-- `_pkgname_parts_re.split(ver_spec)[0]`: the text before the first `.` or
`-` that is followed by a known platform/interpreter tag. -/
def versionHead : List Char → List Char
  | [] => []
  | c :: cs => if (c = '.' || c = '-') && tagAhead cs then [] else c :: versionHead cs

/-- `path.split("-", 1)` when a dash is present. -/
def splitFirstDash (l : List Char) : List Char × List Char :=
  match splitAtDashes l with
  | p :: _ => p
  | [] => (l, [])

/-- `path.rsplit("-", 1)` when a dash is present. -/
def splitLastDash (l : List Char) : List Char × List Char :=
  match (splitAtDashes l).getLast? with
  | some p => p
  | none => (l, [])

/-- The body of `guess_pkgname_and_version` after the `.asc` strip. -/
def guessAfterAsc (p : List Char) : GuessResult :=
  if endsWith ".whl".data p then _guess_pkgname_and_version_wheel p
  else if !archiveSearch p then .none_
  else
    let q := archiveSub p
    if !q.contains '-' then .pair (some (String.mk q)) (some "")
    else if q.count '-' = 1 then
      let pr := splitFirstDash q
      .pair (some (String.mk pr.1)) (some (String.mk pr.2))
    else if !q.contains '.' then
      let pr := splitLastDash q
      .pair (some (String.mk pr.1)) (some (String.mk pr.2))
    else
      let nm := pkgnameTake q
      let ver_spec := q.drop (nm.length + 1)
      .pair (some (String.mk nm)) (some (String.mk (versionHead ver_spec)))

/-- `guess_pkgname_and_version(path)` from `core.py`. -/
def guess_pkgname_and_version (path : String) : GuessResult :=
  let p1 := basenameC path.data
  let p2 := if endsWith ".asc".data p1 then pyRstrip ".asc".data p1 else p1
  guessAfterAsc p2

/-- The first character is `.` (`p.startswith(".")` and the `.`-test after a
`/` share this). -/
def headIsDotB : List Char → Bool
  | [] => false
  | c :: _ => c = '.'

/-- The string contains the two-character sequence `/.`. -/
def hasSlashDot : List Char → Bool
  | [] => false
  | a :: rest => (a = '/' && headIsDotB rest) || hasSlashDot rest

/-- `path_part.replace("\\", "/")`. -/
def backToSlash (l : List Char) : List Char := l.map (fun c => if c = '\\' then '/' else c)

/-- `is_allowed_path(path_part)` from `core.py`. -/
def is_allowed_path (path_part : String) : Bool :=
  let p := backToSlash path_part.data
  !(headIsDotB p || hasSlashDot p)

/-- Split a character list at every `/` (the list of path segments). -/
def splitSlash : List Char → List (List Char)
  | [] => [[]]
  | c :: cs =>
    if c = '/' then [] :: splitSlash cs
    else
      match splitSlash cs with
      | s :: ss => (c :: s) :: ss
      | [] => [[c]]

/-- Python `str(x)` of an optional string (`None` prints as `"None"`),
as used by the f-string in `fname_and_hash`. -/
def pyStrOpt : Option String → String
  | none => "None"
  | some s => s

/-- The `PkgFile` record.  `fname_and_hash_cache` models the
attribute-existence-based memoization slot `_fname_and_hash`; its inner
`Option` is the Python value stored there (which is `relfn_unix`, possibly
`None`, when the hash algorithm is falsy).  `replaces` is never read by the
core and is omitted. -/
structure PkgFile where
  pkgname : String
  version : String
  fn : Option String
  root : Option String
  relfn : Option String
  relfn_unix : Option String
  pkgname_norm : String
  parsed_version : List String
  fname_and_hash_cache : Option (Option String)
deriving DecidableEq

/-- `PkgFile.__init__`. -/
def PkgFile.make (pkgname version : String) (fn root relfn : Option String) : PkgFile :=
  { pkgname := pkgname
    pkgname_norm := normalize_pkgname pkgname
    version := version
    parsed_version := parse_version version
    fn := fn
    root := root
    relfn := relfn
    relfn_unix := relfn.map (fun r => String.mk (backToSlash r.data))
    fname_and_hash_cache := none }

/-- `PkgFile.fname_and_hash(hash_algo)`: `digest_file` is the ambient file
digesting function (an oracle parameter of the model).  Returns the Python
value returned together with the record after the call (the one-time
memoization is the only mutation). -/
def PkgFile.fname_and_hash (digest_file : Option String → String → String)
    (p : PkgFile) (hash_algo : String) : Option String × PkgFile :=
  match p.fname_and_hash_cache with
  | some v => (v, p)
  | none =>
    let v : Option String :=
      if hash_algo ≠ "" then
        some (pyStrOpt p.relfn_unix ++ "#" ++ hash_algo ++ "=" ++ digest_file p.fn hash_algo)
      else p.relfn_unix
    (v, { p with fname_and_hash_cache := some v })

/-- `find_packages(pkgs, prefix)` from `core.py` (the generator is modelled
as a list filter, which preserves order). -/
def find_packages (pkgs : List PkgFile) (pfx : String) : List PkgFile :=
  let p := normalize_pkgname pfx
  pkgs.filter (fun x => !(!(p = "") && !(x.pkgname_norm = p)))

mutual
/-- A directory tree for `os.walk`: files and named subdirectories, in
listing order (mutual with the list of subdirectories so that all
recursions below are structural). -/
inductive DirTree where
  | node (files : List String) (subdirs : DirList) : DirTree
/-- The subdirectory listing of a `DirTree` node. -/
inductive DirList where
  | nil : DirList
  | cons (dname : String) (t : DirTree) (rest : DirList) : DirList
end

mutual
/-- `os.walk` with the in-place pruning
`dirnames[:] = [x for x in dirnames if is_allowed_path(x)]` of `_listdir`:
yields `(directory segments relative to the root, filename)` for every file
reached; a pruned subdirectory is never entered. -/
def walkFiles (path : List String) : DirTree → List (List String × String)
  | .node files subdirs => files.map (fun f => (path, f)) ++ walkSubdirs path subdirs
termination_by structural t => t
/-- The walk over the (already pruned-in-place) subdirectory listing. -/
def walkSubdirs (path : List String) : DirList → List (List String × String)
  | .nil => []
  | .cons d t rest =>
    (if is_allowed_path d then walkFiles (path ++ [d]) t else []) ++ walkSubdirs path rest
termination_by structural l => l
end

/-- The per-file guard of `_listdir`: `is_allowed_path(x)`, then
`res = guess_pkgname_and_version(x)`, `if not res: continue`, and
`if pkgname:` (`os.path.isfile` is modelled as true for tree leaves). -/
def yieldsFile (x : String) : Bool :=
  is_allowed_path x &&
    (match guess_pkgname_and_version x with
     | .none_ => false
     | .pair a _ => match a with | none => false | some n => !(n = ""))

/-- Join path segments with `/` (at the character level). -/
def joinSlash : List String → List Char
  | [] => []
  | [s] => s.data
  | s :: rest => s.data ++ '/' :: joinSlash rest

/-- `relfn` of a yielded record: the walk segments and the filename joined
by `/` (`fn[len(root) + 1:]` for `fn = os.path.join(root, dirpath, x)`). -/
def relOf (pr : List String × String) : String :=
  String.mk (joinSlash (pr.1 ++ [pr.2]))

/-- `_listdir(root)` from `core.py`, as the list of yielded records'
relative paths paired with their guess results. -/
def _listdir (t : DirTree) : List (List String × String) :=
  (walkFiles [] t).filter (fun pr => yieldsFile pr.2)

example : guess_pkgname_and_version "sampleproject-1.2.0.tar.gz" =
    .pair (some "sampleproject") (some "1.2.0") := by decide
example : guess_pkgname_and_version "sampleproject-1.2.0-py3-none-any.whl" =
    .pair (some "sampleproject") (some "1.2.0") := by decide
example : guess_pkgname_and_version "sampleproject-1.2.0-1-py3-none-any.whl" =
    .pair (some "sampleproject") (some "1.2.0-1") := by decide
example : guess_pkgname_and_version "readme.txt" = .none_ := by decide
example : guess_pkgname_and_version "foo.whl" = .pair none none := by decide
example : guess_pkgname_and_version "foo-1.0.tar.gzc.asc" = .pair (some "foo") (some "1.0") := by decide
example : guess_pkgname_and_version "foo-1.0.tar.gzc" = .none_ := by decide
example : normalize_pkgname "Foo_Bar.Baz" = "foo-bar-baz" := by decide
example : is_allowed_path "a/.b" = false := by decide
example : walkFiles [] (.node ["a.txt"] (.cons ".h" (.node ["x"] .nil) .nil)) = [([], "a.txt")] := by decide

theorem ule_iff (a b : UInt32) : a ≤ b ↔ a.toNat ≤ b.toNat := by
  rw [UInt32.le_def, BitVec.le_def]; rfl

theorem ult_iff (a b : UInt32) : a < b ↔ a.toNat < b.toNat := by
  rw [UInt32.lt_def, BitVec.lt_def]; rfl

theorem cle_iff (a b : Char) : a ≤ b ↔ a.toNat ≤ b.toNat := Char.le_def.trans (ule_iff _ _)

theorem clt_iff (a b : Char) : a < b ↔ a.toNat < b.toNat := Char.lt_def.trans (ult_iff _ _)

theorem ceq_iff (a b : Char) : a = b ↔ a.toNat = b.toNat := by
  rw [Char.ext_iff, UInt32.ext_iff]; rfl

theorem toNat_ofNat_valid (n : Nat) (h : n.isValidChar) : (Char.ofNat n).toNat = n := by
  rw [Char.ofNat, dif_pos h]; rfl

theorem toLower_toNat (c : Char) :
    (Char.toLower c).toNat = if 65 ≤ c.toNat ∧ c.toNat ≤ 90 then c.toNat + 32 else c.toNat := by
  unfold Char.toLower
  split
  · next h =>
    rw [if_pos (by omega), toNat_ofNat_valid]
    exact Or.inl (by omega)
  · next h => rw [if_neg (by omega)]

theorem toLower_idem (c : Char) : (Char.toLower c).toLower = c.toLower := by
  rw [ceq_iff, toLower_toNat, toLower_toNat]
  split_ifs <;> omega

theorem isSepC_toLower (c : Char) : isSepC c.toLower = isSepC c := by
  simp only [isSepC, ceq_iff, toLower_toNat]
  have h45 : ('-' : Char).toNat = 45 := rfl
  have h95 : ('_' : Char).toNat = 95 := rfl
  have h46 : ('.' : Char).toNat = 46 := rfl
  rw [h45, h95, h46]
  split <;> [skip; rfl]
  next h =>
    have h1 : ¬(c.toNat + 32 = 45) ∧ ¬(c.toNat + 32 = 95) ∧ ¬(c.toNat + 32 = 46) := by omega
    have h2 : ¬(c.toNat = 45) ∧ ¬(c.toNat = 95) ∧ ¬(c.toNat = 46) := by omega
    simp_all

/-- C1: the version-key ordering matches conventional release semantics on the
spec's examples: `1.0rc1 < 1.0 < 1.0.post1` and `1.0 < 1.0.1 < 1.1`, under
pointwise lexical tuple comparison (`keyLt`) of the keys produced by
`parse_version`. -/
theorem C1_version_order_examples :
    keyLt (parse_version "1.0rc1") (parse_version "1.0") = true ∧
    keyLt (parse_version "1.0") (parse_version "1.0.post1") = true ∧
    keyLt (parse_version "1.0") (parse_version "1.0.1") = true ∧
    keyLt (parse_version "1.0.1") (parse_version "1.1") = true := by
  refine ⟨?_, ?_, ?_, ?_⟩ <;> decide

/-- C9: the hash fragment of a `PkgFile` is memoized exactly once: after a
first call to `fname_and_hash` with algorithm `a1` returns `v`, a subsequent
call with any algorithm `a2` (even a different one) returns the same `v` and
leaves the stored fragment (and the whole record) unchanged. -/
theorem C9_fname_and_hash_memoized (digest : Option String → String → String)
    (p : PkgFile) (a1 a2 : String) :
    PkgFile.fname_and_hash digest (PkgFile.fname_and_hash digest p a1).2 a2 =
      ((PkgFile.fname_and_hash digest p a1).1, (PkgFile.fname_and_hash digest p a1).2) := by
  cases h : p.fname_and_hash_cache <;>
    simp [PkgFile.fname_and_hash, h]

/-- C8: `find_packages` with a non-empty (already-normalized) name keeps
exactly the records whose `pkgname_norm` equals that name (exact equality,
not a prefix match), preserving order (it is a filter); with an empty name
it yields every record unchanged. -/
theorem C8_find_packages_filter (pkgs : List PkgFile) (n : String)
    (hne : n ≠ "") (hnorm : normalize_pkgname n = n) :
    find_packages pkgs n = pkgs.filter (fun x => x.pkgname_norm = n) ∧
    find_packages pkgs "" = pkgs := by
  constructor
  · unfold find_packages
    rw [hnorm]
    apply List.filter_congr
    intro x _
    simp [hne]
  · unfold find_packages
    have h0 : normalize_pkgname "" = "" := rfl
    rw [h0]
    simp

theorem C8_witness :
    find_packages [PkgFile.make "Foo_Bar" "1.0" none none none] "foo-bar" =
      List.filter (fun x => x.pkgname_norm = "foo-bar")
        [PkgFile.make "Foo_Bar" "1.0" none none none] ∧
    find_packages [PkgFile.make "Foo_Bar" "1.0" none none none] "" =
      [PkgFile.make "Foo_Bar" "1.0" none none none] :=
  C8_find_packages_filter [PkgFile.make "Foo_Bar" "1.0" none none none] "foo-bar"
    (by decide) (by decide)

/-- C10: the guesser's no-match outcome is not uniform: a filename ending in
`.whl` whose wheel-grammar match fails yields the pair `(None, None)` (which
is truthy in Python), while a non-wheel filename with no allow-listed archive
suffix yields the bare `None` (falsy); the scanner's per-file guard therefore
additionally checks the name component, so a failed-wheel file is still not
yielded. -/
theorem C10_nomatch_shapes (p : List Char) (x : String) :
    (endsWith ".whl".data p = true → wheelMatch p = none →
      guessAfterAsc p = .pair none none) ∧
    (endsWith ".whl".data p = false → archiveSearch p = false →
      guessAfterAsc p = .none_) ∧
    pyTruthy (.pair none none) = true ∧ pyTruthy .none_ = false ∧
    (guess_pkgname_and_version x = .pair none none → yieldsFile x = false) := by
  refine ⟨?_, ?_, rfl, rfl, ?_⟩
  · intro hw hm
    simp [guessAfterAsc, hw, _guess_pkgname_and_version_wheel, hm]
  · intro hw ha
    simp [guessAfterAsc, hw, ha]
  · intro hg
    simp [yieldsFile, hg]

theorem C10_witness :
    guessAfterAsc "foo.whl".data = .pair none none ∧
    guessAfterAsc "readme.txt".data = .none_ ∧
    yieldsFile "foo.whl" = false :=
  ⟨(C10_nomatch_shapes "foo.whl".data "foo.whl").1 (by decide) (by decide),
   (C10_nomatch_shapes "readme.txt".data "readme.txt").2.1 (by decide) (by decide),
   (C10_nomatch_shapes "foo.whl".data "foo.whl").2.2.2.2 (by decide)⟩

theorem startsWithDigit_zfill8 (p : String) (h : startsWithDigit p = true) :
    startsWithDigit (zfill8 p) = true := by
  unfold zfill8
  split
  · next hlen =>
    have hk : 8 - p.length = (7 - p.length) + 1 := by omega
    rw [startsWithDigit, String.data_append, hk, List.replicate_succ, List.cons_append]
    rfl
  · exact h

theorem mem_parts_shape {t s : String} (h : t ∈ _parse_version_parts s) :
    startsWithDigit t = true ∨ startsWithStar t = true := by
  unfold _parse_version_parts at h
  rw [List.mem_append] at h
  rcases h with h | h
  · rw [List.mem_map] at h
    obtain ⟨p, hp, rfl⟩ := h
    by_cases hd : startsWithDigit p = true
    · left
      rw [if_pos hd]
      exact startsWithDigit_zfill8 p hd
    · right
      rw [if_neg hd, startsWithStar, String.data_append]
      rfl
  · rw [List.mem_singleton] at h
    subst h
    right
    decide

theorem mem_dropZeros {t : String} : ∀ (l : List String), t ∈ dropZeros l → t ∈ l := by
  intro l
  induction l with
  | nil => simp [dropZeros]
  | cons a l ih =>
    rw [dropZeros]
    split
    · intro h
      exact List.mem_cons_of_mem _ (ih h)
    · exact fun h => h

theorem mem_pvGo {t : String} :
    ∀ (l acc : List String), t ∈ pvGo acc l → t ∈ acc ∨ t ∈ l := by
  intro l
  induction l with
  | nil =>
    intro acc h
    rw [pvGo, List.mem_reverse] at h
    exact Or.inl h
  | cons p ps ih =>
    intro acc h
    rw [pvGo] at h
    split at h
    · rcases ih _ h with hm | hm
      · rcases List.mem_cons.mp hm with rfl | hm
        · exact Or.inr (List.mem_cons_self _ _)
        · exact Or.inl (mem_dropZeros _ hm)
      · exact Or.inr (List.mem_cons_of_mem _ hm)
    · rcases ih _ h with hm | hm
      · rcases List.mem_cons.mp hm with rfl | hm
        · exact Or.inr (List.mem_cons_self _ _)
        · exact Or.inl hm
      · exact Or.inr (List.mem_cons_of_mem _ hm)

theorem mem_parse_version_shape {t s : String} (h : t ∈ parse_version s) :
    startsWithDigit t = true ∨ startsWithStar t = true := by
  unfold parse_version at h
  rcases mem_pvGo _ _ h with hm | hm
  · simp at hm
  · exact mem_parts_shape hm

theorem star_lt_digit {t u : String} (ht : startsWithStar t = true)
    (hu : startsWithDigit u = true) : strLtB t u = true ∧ strLtB u t = false := by
  unfold startsWithStar at ht
  unfold startsWithDigit at hu
  unfold strLtB
  rcases hdt : t.data with _ | ⟨c, cs⟩ <;> rw [hdt] at ht
  · exact absurd ht (by decide)
  · rcases hdu : u.data with _ | ⟨d, ds⟩ <;> rw [hdu] at hu
    · exact absurd hu (by decide)
    · have hc : c = '*' := by simpa using ht
      have hd : 48 ≤ d.toNat ∧ d.toNat ≤ 57 := by
        simp only [isDigitC, Bool.and_eq_true, decide_eq_true_eq] at hu
        have h1 := (cle_iff '0' d).mp hu.1
        have h2 := (cle_iff d '9').mp hu.2
        have h0 : ('0' : Char).toNat = 48 := rfl
        have h9 : ('9' : Char).toNat = 57 := rfl
        omega
      subst hc
      have hlt : ('*' : Char) < d := by
        rw [clt_iff]
        have : ('*' : Char).toNat = 42 := rfl
        omega
      have hnlt : ¬(d < ('*' : Char)) := by
        rw [clt_iff]
        have : ('*' : Char).toNat = 42 := rfl
        omega
      constructor
      · rw [chLt, if_pos hlt]
      · rw [chLt, if_neg hnlt, if_pos hlt]

/-- C2 (amended): in the key built by `parse_version`, every token either is a
zero-padded numeric token (starts with a digit) or carries the sentinel `*`
marker, and a sentinel-marked token sorts strictly BEFORE (not after) any
numeric token at the same tuple position under the lexical comparison used
for keys (`'*'` precedes the digits in code-point order). -/
theorem C2_sentinel_tokens (s s' t u : String)
    (ht : t ∈ parse_version s) (hu : u ∈ parse_version s') :
    (startsWithDigit t = true ∨ startsWithStar t = true) ∧
    (startsWithStar t = true → startsWithDigit u = true →
      strLtB t u = true ∧ strLtB u t = false) := by
  refine ⟨mem_parse_version_shape ht, ?_⟩
  intro h1 h2
  exact star_lt_digit h1 h2

theorem C2_witness :
    ((startsWithDigit "*final" = true ∨ startsWithStar "*final" = true) ∧
      (startsWithStar "*final" = true → startsWithDigit "00000001" = true →
        strLtB "*final" "00000001" = true ∧ strLtB "00000001" "*final" = false)) ∧
    strLtB "*final" "00000001" = true :=
  ⟨C2_sentinel_tokens "1.0" "1.0" "*final" "00000001" (by decide) (by decide),
   (C2_sentinel_tokens "1.0" "1.0" "*final" "00000001" (by decide) (by decide)).2
     (by decide) (by decide) |>.1⟩

/-- C2, counterexample to the claim as stated: the sentinel `*final` token and
the numeric token `00000001` both occur in keys (both are in the key of
`"1.0"`), yet the sentinel token sorts BEFORE the numeric token, not after it:
`"00000001" < "*final"` is false and `"*final" < "00000001"` is true. -/
theorem C2_counterexample :
    ("*final" ∈ parse_version "1.0") ∧ ("00000001" ∈ parse_version "1.0") ∧
    strLtB "00000001" "*final" = false ∧ strLtB "*final" "00000001" = true := by
  refine ⟨by decide, by decide, by decide, by decide⟩

theorem collapseGo_map_toLower : ∀ (l : List Char) (b : Bool),
    collapseGo b (l.map Char.toLower) = (collapseGo b l).map Char.toLower := by
  intro l
  induction l with
  | nil => intro b; rfl
  | cons c cs ih =>
    intro b
    rw [List.map_cons, collapseGo, collapseGo, isSepC_toLower]
    split
    · split
      · exact ih true
      · rw [List.map_cons, ih true]
        rfl
    · rw [List.map_cons, ih false]

theorem collapseGo_idem : ∀ (l : List Char) (b : Bool),
    collapseGo b (collapseGo b l) = collapseGo b l := by
  intro l
  induction l with
  | nil => intro b; cases b <;> rfl
  | cons c cs ih =>
    intro b
    by_cases hsep : isSepC c = true
    · cases b
      · have hstep : collapseGo false (c :: cs) = '-' :: collapseGo true cs := by
          rw [collapseGo, if_pos hsep]
          simp
        rw [hstep, collapseGo, if_pos (by decide : isSepC '-' = true)]
        simp only [Bool.false_eq_true, if_false]
        rw [ih true]
      · have hstep : collapseGo true (c :: cs) = collapseGo true cs := by
          rw [collapseGo, if_pos hsep]
          simp
        rw [hstep]
        exact ih true
    · have hstep : ∀ b, collapseGo b (c :: cs) = c :: collapseGo false cs := by
        intro b
        rw [collapseGo, if_neg hsep]
      rw [hstep b, collapseGo, if_neg hsep]
      exact congrArg _ (ih false)

/-- No two adjacent characters are both separator characters. -/
def noAdjSep : List Char → Bool
  | a :: b :: rest => !(isSepC a && isSepC b) && noAdjSep (b :: rest)
  | _ => true

theorem collapseGo_head_true : ∀ (l : List Char),
    (∀ c cs, collapseGo true l = c :: cs → isSepC c = false) := by
  intro l
  induction l with
  | nil => intro c cs h; simp [collapseGo] at h
  | cons a l ih =>
    intro c cs h
    rw [collapseGo] at h
    split at h
    · simp only [if_pos rfl] at h
      exact ih c cs h
    · next hsep =>
      rw [List.cons_eq_cons] at h
      obtain ⟨rfl, _⟩ := h
      simpa using hsep

theorem noAdjSep_cons {c : Char} {l : List Char} (hc : isSepC c = false)
    (hl : noAdjSep l = true) : noAdjSep (c :: l) = true := by
  cases l with
  | nil => rfl
  | cons b rest =>
    rw [noAdjSep]
    simp [hc, hl]

theorem noAdjSep_collapseGo : ∀ (l : List Char) (b : Bool),
    noAdjSep (collapseGo b l) = true := by
  intro l
  induction l with
  | nil => intro b; cases b <;> rfl
  | cons c cs ih =>
    intro b
    by_cases hsep : isSepC c = true
    · cases b
      · have hstep : collapseGo false (c :: cs) = '-' :: collapseGo true cs := by
          rw [collapseGo, if_pos hsep]
          simp
        rw [hstep]
        cases hr : collapseGo true cs with
        | nil => rfl
        | cons d ds =>
          rw [noAdjSep]
          have hd : isSepC d = false := collapseGo_head_true cs d ds hr
          have := ih true
          rw [hr] at this
          simp [hd, this]
      · have hstep : collapseGo true (c :: cs) = collapseGo true cs := by
          rw [collapseGo, if_pos hsep]
          simp
        rw [hstep]
        exact ih true
    · have hstep : collapseGo b (c :: cs) = c :: collapseGo false cs := by
        rw [collapseGo, if_neg hsep]
      rw [hstep]
      exact noAdjSep_cons (by simpa using hsep) (ih false)

theorem sep_collapseGo_dash : ∀ (l : List Char) (b : Bool) (c : Char),
    c ∈ collapseGo b l → isSepC c = true → c = '-' := by
  intro l
  induction l with
  | nil => intro b c h; simp [collapseGo] at h
  | cons a l ih =>
    intro b c h hsep
    by_cases ha : isSepC a = true
    · cases b
      · have hstep : collapseGo false (a :: l) = '-' :: collapseGo true l := by
          rw [collapseGo, if_pos ha]
          simp
        rw [hstep] at h
        rcases List.mem_cons.mp h with rfl | h
        · rfl
        · exact ih true c h hsep
      · have hstep : collapseGo true (a :: l) = collapseGo true l := by
          rw [collapseGo, if_pos ha]
          simp
        rw [hstep] at h
        exact ih true c h hsep
    · have hstep : collapseGo b (a :: l) = a :: collapseGo false l := by
        rw [collapseGo, if_neg ha]
      rw [hstep] at h
      rcases List.mem_cons.mp h with rfl | h
      · rw [hsep] at ha
        exact absurd rfl ha
      · exact ih false c h hsep

theorem noAdjSep_map_toLower : ∀ (l : List Char),
    noAdjSep l = true → noAdjSep (l.map Char.toLower) = true := by
  intro l
  induction l with
  | nil => intro h; exact h
  | cons a l ih =>
    intro h
    cases l with
    | nil => rfl
    | cons b rest =>
      rw [noAdjSep] at h
      simp only [Bool.and_eq_true, Bool.not_eq_true', Bool.and_eq_false_iff] at h
      rw [List.map_cons, List.map_cons, noAdjSep]
      have h2 := ih h.2
      rw [List.map_cons] at h2
      simp only [Bool.and_eq_true, Bool.not_eq_true', Bool.and_eq_false_iff]
      refine ⟨?_, h2⟩
      rcases h.1 with hc | hc
      · left; rw [isSepC_toLower]; exact hc
      · right; rw [isSepC_toLower]; exact hc

/-- C5: `normalize_pkgname` is total and idempotent; its result is entirely
lowercase (every character is fixed by lowercasing), every separator
character in it is `-` and no two adjacent characters are separators (each
maximal run of `-`, `_`, `.` was replaced by a single `-`), and on the
spec's examples `"Foo_Bar.Baz"` and `"foo-bar-baz"` both normalize to
`"foo-bar-baz"`. -/
theorem C5_normalize_idempotent (s : String) :
    normalize_pkgname (normalize_pkgname s) = normalize_pkgname s ∧
    (∀ c ∈ (normalize_pkgname s).data, c.toLower = c) ∧
    (∀ c ∈ (normalize_pkgname s).data, isSepC c = true → c = '-') ∧
    noAdjSep (normalize_pkgname s).data = true ∧
    normalize_pkgname "Foo_Bar.Baz" = "foo-bar-baz" ∧
    normalize_pkgname "foo-bar-baz" = "foo-bar-baz" := by
  refine ⟨?_, ?_, ?_, ?_, by decide, by decide⟩
  · unfold normalize_pkgname pyLower
    apply congrArg String.mk
    show (collapseGo false ((collapseGo false s.data).map Char.toLower)).map Char.toLower =
      (collapseGo false s.data).map Char.toLower
    rw [collapseGo_map_toLower, collapseGo_idem]
    simp [List.map_map, Function.comp_def, toLower_idem]
  · intro c hc
    have hc' : c ∈ (collapseGo false s.data).map Char.toLower := hc
    rw [List.mem_map] at hc'
    obtain ⟨d, _, rfl⟩ := hc'
    exact toLower_idem d
  · intro c hc hsep
    have hc' : c ∈ (collapseGo false s.data).map Char.toLower := hc
    rw [List.mem_map] at hc'
    obtain ⟨d, hd, rfl⟩ := hc'
    rw [isSepC_toLower] at hsep
    rw [sep_collapseGo_dash s.data false d hd hsep]
    rfl
  · exact noAdjSep_map_toLower _ (noAdjSep_collapseGo s.data false)

theorem C5_witness :
    normalize_pkgname (normalize_pkgname "A__b.C") = normalize_pkgname "A__b.C" ∧
    Char.toLower 'a' = 'a' ∧ ('-' : Char) = '-' ∧
    noAdjSep (normalize_pkgname "A__b.C").data = true :=
  ⟨(C5_normalize_idempotent "A__b.C").1,
   (C5_normalize_idempotent "A__b.C").2.1 'a' (by decide),
   (C5_normalize_idempotent "A__b.C").2.2.1 '-' (by decide) (by decide),
   (C5_normalize_idempotent "A__b.C").2.2.2.1⟩

theorem shiftAux (X : List (List Char)) {A B ts : List (List Char)} {g : List Char}
    (h1 : A = ts ++ [g]) (h2 : B = ts ++ [g, ['.'], [], ['0'], []]) :
    ∃ ts' g', X ++ A = ts' ++ [g'] ∧ X ++ B = ts' ++ [g', ['.'], [], ['0'], []] :=
  ⟨X ++ ts, g, by simp [h1], by simp [h2]⟩

/-- Appending the two characters `.0` to the scanner input replaces the final
gap `g` of the split by `g, ".", "", "0", ""`. -/
theorem sgo_dot0 : ∀ (l : List Char) (m : SMode) (cur : List Char),
    ∃ ts g, sgo m cur l = ts ++ [g] ∧
      sgo m cur (l ++ ['.', '0']) = ts ++ [g, ['.'], [], ['0'], []] := by
  intro l
  induction l with
  | nil =>
    intro m cur
    cases m with
    | gap => exact ⟨[], cur.reverse, rfl, rfl⟩
    | dig => exact ⟨[cur.reverse], [], rfl, rfl⟩
    | alf => exact ⟨[cur.reverse], [], rfl, rfl⟩
  | cons c cs ih =>
    intro m cur
    by_cases hd : isDigitC c = true
    · cases m with
      | gap =>
        obtain ⟨ts, g, h1, h2⟩ := ih .dig [c]
        rw [show sgo .gap cur (c :: cs) = cur.reverse :: sgo .dig [c] cs by rw [sgo, if_pos hd],
          List.cons_append,
          show sgo .gap cur (c :: (cs ++ ['.', '0'])) =
            cur.reverse :: sgo .dig [c] (cs ++ ['.', '0']) by rw [sgo, if_pos hd]]
        exact shiftAux [cur.reverse] h1 h2
      | dig =>
        obtain ⟨ts, g, h1, h2⟩ := ih .dig (c :: cur)
        rw [show sgo .dig cur (c :: cs) = sgo .dig (c :: cur) cs by rw [sgo, if_pos hd],
          List.cons_append,
          show sgo .dig cur (c :: (cs ++ ['.', '0'])) =
            sgo .dig (c :: cur) (cs ++ ['.', '0']) by rw [sgo, if_pos hd]]
        exact shiftAux [] h1 h2
      | alf =>
        obtain ⟨ts, g, h1, h2⟩ := ih .dig [c]
        rw [show sgo .alf cur (c :: cs) = cur.reverse :: [] :: sgo .dig [c] cs by
            rw [sgo, if_pos hd],
          List.cons_append,
          show sgo .alf cur (c :: (cs ++ ['.', '0'])) =
            cur.reverse :: [] :: sgo .dig [c] (cs ++ ['.', '0']) by rw [sgo, if_pos hd]]
        exact shiftAux [cur.reverse, []] h1 h2
    · by_cases ha : isAlphaC c = true
      · cases m with
        | gap =>
          obtain ⟨ts, g, h1, h2⟩ := ih .alf [c]
          rw [show sgo .gap cur (c :: cs) = cur.reverse :: sgo .alf [c] cs by
              rw [sgo, if_neg hd, if_pos ha],
            List.cons_append,
            show sgo .gap cur (c :: (cs ++ ['.', '0'])) =
              cur.reverse :: sgo .alf [c] (cs ++ ['.', '0']) by rw [sgo, if_neg hd, if_pos ha]]
          exact shiftAux [cur.reverse] h1 h2
        | dig =>
          obtain ⟨ts, g, h1, h2⟩ := ih .alf [c]
          rw [show sgo .dig cur (c :: cs) = cur.reverse :: [] :: sgo .alf [c] cs by
              rw [sgo, if_neg hd, if_pos ha],
            List.cons_append,
            show sgo .dig cur (c :: (cs ++ ['.', '0'])) =
              cur.reverse :: [] :: sgo .alf [c] (cs ++ ['.', '0']) by
              rw [sgo, if_neg hd, if_pos ha]]
          exact shiftAux [cur.reverse, []] h1 h2
        | alf =>
          obtain ⟨ts, g, h1, h2⟩ := ih .alf (c :: cur)
          rw [show sgo .alf cur (c :: cs) = sgo .alf (c :: cur) cs by
              rw [sgo, if_neg hd, if_pos ha],
            List.cons_append,
            show sgo .alf cur (c :: (cs ++ ['.', '0'])) =
              sgo .alf (c :: cur) (cs ++ ['.', '0']) by rw [sgo, if_neg hd, if_pos ha]]
          exact shiftAux [] h1 h2
      · by_cases hdot : (c = '.' || c = '-') = true
        · cases m with
          | gap =>
            obtain ⟨ts, g, h1, h2⟩ := ih .gap []
            rw [show sgo .gap cur (c :: cs) = cur.reverse :: [c] :: sgo .gap [] cs by
                rw [sgo, if_neg hd, if_neg ha, if_pos hdot],
              List.cons_append,
              show sgo .gap cur (c :: (cs ++ ['.', '0'])) =
                cur.reverse :: [c] :: sgo .gap [] (cs ++ ['.', '0']) by
                rw [sgo, if_neg hd, if_neg ha, if_pos hdot]]
            exact shiftAux [cur.reverse, [c]] h1 h2
          | dig =>
            obtain ⟨ts, g, h1, h2⟩ := ih .gap []
            rw [show sgo .dig cur (c :: cs) = cur.reverse :: [] :: [c] :: sgo .gap [] cs by
                rw [sgo, if_neg hd, if_neg ha, if_pos hdot],
              List.cons_append,
              show sgo .dig cur (c :: (cs ++ ['.', '0'])) =
                cur.reverse :: [] :: [c] :: sgo .gap [] (cs ++ ['.', '0']) by
                rw [sgo, if_neg hd, if_neg ha, if_pos hdot]]
            exact shiftAux [cur.reverse, [], [c]] h1 h2
          | alf =>
            obtain ⟨ts, g, h1, h2⟩ := ih .gap []
            rw [show sgo .alf cur (c :: cs) = cur.reverse :: [] :: [c] :: sgo .gap [] cs by
                rw [sgo, if_neg hd, if_neg ha, if_pos hdot],
              List.cons_append,
              show sgo .alf cur (c :: (cs ++ ['.', '0'])) =
                cur.reverse :: [] :: [c] :: sgo .gap [] (cs ++ ['.', '0']) by
                rw [sgo, if_neg hd, if_neg ha, if_pos hdot]]
            exact shiftAux [cur.reverse, [], [c]] h1 h2
        · cases m with
          | gap =>
            obtain ⟨ts, g, h1, h2⟩ := ih .gap (c :: cur)
            rw [show sgo .gap cur (c :: cs) = sgo .gap (c :: cur) cs by
                rw [sgo, if_neg hd, if_neg ha, if_neg hdot],
              List.cons_append,
              show sgo .gap cur (c :: (cs ++ ['.', '0'])) =
                sgo .gap (c :: cur) (cs ++ ['.', '0']) by
                rw [sgo, if_neg hd, if_neg ha, if_neg hdot]]
            exact shiftAux [] h1 h2
          | dig =>
            obtain ⟨ts, g, h1, h2⟩ := ih .gap [c]
            rw [show sgo .dig cur (c :: cs) = cur.reverse :: sgo .gap [c] cs by
                rw [sgo, if_neg hd, if_neg ha, if_neg hdot],
              List.cons_append,
              show sgo .dig cur (c :: (cs ++ ['.', '0'])) =
                cur.reverse :: sgo .gap [c] (cs ++ ['.', '0']) by
                rw [sgo, if_neg hd, if_neg ha, if_neg hdot]]
            exact shiftAux [cur.reverse] h1 h2
          | alf =>
            obtain ⟨ts, g, h1, h2⟩ := ih .gap [c]
            rw [show sgo .alf cur (c :: cs) = cur.reverse :: sgo .gap [c] cs by
                rw [sgo, if_neg hd, if_neg ha, if_neg hdot],
              List.cons_append,
              show sgo .alf cur (c :: (cs ++ ['.', '0'])) =
                cur.reverse :: sgo .gap [c] (cs ++ ['.', '0']) by
                rw [sgo, if_neg hd, if_neg ha, if_neg hdot]]
            exact shiftAux [cur.reverse] h1 h2

theorem parts_dot0 (s : String) :
    _parse_version_parts (s ++ ".0") = (_parse_version_parts s).dropLast ++ ["00000000", "*final"] := by
  obtain ⟨ts, g, h1, h2⟩ := sgo_dot0 s.data .gap []
  have hdata : (s ++ ".0").data = s.data ++ ['.', '0'] := by
    rw [String.data_append]
  unfold _parse_version_parts componentSplit
  rw [hdata, h2, h1]
  rw [show ts ++ [g, ['.'], [], ['0'], []] = (ts ++ [g]) ++ [['.'], [], ['0'], []] by simp]
  rw [List.map_append, List.map_append, List.filter_append, List.map_append,
    List.dropLast_concat, List.append_assoc]
  congr 1

theorem parts_final (s : String) :
    _parse_version_parts s = (_parse_version_parts s).dropLast ++ ["*final"] := by
  conv_lhs => rw [_parse_version_parts]
  rw [_parse_version_parts, List.dropLast_concat]

theorem pvGo_zeros_final : ∀ (A acc : List String),
    pvGo acc (A ++ ["00000000", "*final"]) = pvGo acc (A ++ ["*final"]) := by
  intro A
  induction A with
  | nil =>
    intro acc
    simp only [List.nil_append]
    have hL : pvGo acc ("00000000" :: "*final" :: []) = ("*final" :: dropZeros acc).reverse := by
      rw [pvGo, if_neg (by decide : ¬(startsWithStar "00000000" = true)), pvGo,
        if_pos (by decide : startsWithStar "*final" = true),
        show dropZeros ("00000000" :: acc) = dropZeros acc from by rw [dropZeros, if_pos rfl],
        pvGo]
    have hR : pvGo acc ("*final" :: []) = ("*final" :: dropZeros acc).reverse := by
      rw [pvGo, if_pos (by decide : startsWithStar "*final" = true), pvGo]
    rw [hL, hR]
  | cons p ps ih =>
    intro acc
    simp only [List.cons_append, pvGo]
    by_cases hp : startsWithStar p = true
    · rw [if_pos hp, if_pos hp]
      exact ih _
    · rw [if_neg hp, if_neg hp]
      exact ih _

theorem pyLower_dot0 (s : String) : pyLower (s ++ ".0") = pyLower s ++ ".0" := by
  unfold pyLower
  have hdata : (s ++ ".0").data = s.data ++ ['.', '0'] := by
    rw [String.data_append]
  rw [hdata, List.map_append]
  have : (['.', '0'] : List Char).map Char.toLower = ['.', '0'] := by decide
  rw [this]
  rfl

/-- C3: `parse_version "1.0" = parse_version "1.0.0"`; in general appending a
trailing `.0` segment never changes the key (the zero token is popped when
the sentinel `*final` — or any sentinel token — is appended), while
`"1.0.dev1"` still gets a key distinct from and ordered before that of
`"1.0"`. -/
theorem C3_trailing_zeros :
    parse_version "1.0" = parse_version "1.0.0" ∧
    (∀ s : String, parse_version (s ++ ".0") = parse_version s) ∧
    parse_version "1.0.dev1" ≠ parse_version "1.0" ∧
    keyLt (parse_version "1.0.dev1") (parse_version "1.0") = true := by
  refine ⟨by decide, ?_, by decide, by decide⟩
  intro s
  unfold parse_version
  rw [pyLower_dot0, parts_dot0, pvGo_zeros_final, ← parts_final]

theorem splitSlash_spec : ∀ (l : List Char), ∃ s ss, splitSlash l = s :: ss ∧
    headIsDotB l = headIsDotB s ∧ hasSlashDot l = ss.any headIsDotB := by
  intro l
  induction l with
  | nil => exact ⟨[], [], rfl, rfl, rfl⟩
  | cons c cs ih =>
    obtain ⟨s, ss, hsplit, hhead, hslash⟩ := ih
    by_cases hc : c = '/'
    · subst hc
      refine ⟨[], s :: ss, ?_, rfl, ?_⟩
      · rw [splitSlash, if_pos rfl, hsplit]
      · rw [hasSlashDot, List.any_cons, ← hhead, ← hslash]
        simp
    · refine ⟨c :: s, ss, ?_, ?_, ?_⟩
      · rw [splitSlash, if_neg hc, hsplit]
      · rfl
      · rw [hasSlashDot, ← hslash]
        simp [hc]

theorem is_allowed_path_iff (s : String) :
    is_allowed_path s = true ↔
      ∀ seg ∈ splitSlash (backToSlash s.data), headIsDotB seg = false := by
  obtain ⟨s0, ss, hsplit, hhead, hslash⟩ := splitSlash_spec (backToSlash s.data)
  have hun : is_allowed_path s =
      !(headIsDotB (backToSlash s.data) || hasSlashDot (backToSlash s.data)) := rfl
  rw [hun, hsplit, hhead, hslash]
  simp only [Bool.not_eq_true', Bool.or_eq_false_iff, List.any_eq_false]
  constructor
  · rintro ⟨h1, h2⟩ seg hseg
    rcases List.mem_cons.mp hseg with rfl | hseg
    · exact h1
    · simpa using h2 seg hseg
  · intro h
    refine ⟨h s0 (List.mem_cons_self _ _), fun seg hseg => ?_⟩
    simp [h seg (List.mem_cons_of_mem _ hseg)]

mutual
/-- Every directory segment of a record yielded by the walk either was part
of the starting path or passed the `is_allowed_path` pruning check. -/
theorem walkFiles_dirs : ∀ (t : DirTree) (path : List String) (pr : List String × String),
    pr ∈ walkFiles path t → ∀ d ∈ pr.1, d ∈ path ∨ is_allowed_path d = true
  | .node files subdirs, path, pr, hmem => by
    rw [walkFiles] at hmem
    rcases List.mem_append.mp hmem with h | h
    · rw [List.mem_map] at h
      obtain ⟨f, _, rfl⟩ := h
      intro d hd
      exact Or.inl hd
    · exact walkSubdirs_dirs subdirs path pr h
termination_by structural t => t
/-- As `walkFiles_dirs`, for the subdirectory listing. -/
theorem walkSubdirs_dirs : ∀ (l : DirList) (path : List String) (pr : List String × String),
    pr ∈ walkSubdirs path l → ∀ d ∈ pr.1, d ∈ path ∨ is_allowed_path d = true
  | .nil, path, pr, hmem => by
    rw [walkSubdirs] at hmem
    simp at hmem
  | .cons dn t rest, path, pr, hmem => by
    rw [walkSubdirs] at hmem
    rcases List.mem_append.mp hmem with h | h
    · by_cases hall : is_allowed_path dn = true
      · rw [if_pos hall] at h
        intro d hd
        rcases walkFiles_dirs t (path ++ [dn]) pr h d hd with hin | hok
        · rcases List.mem_append.mp hin with h1 | h1
          · exact Or.inl h1
          · rw [List.mem_singleton] at h1
            subst h1
            exact Or.inr hall
        · exact Or.inr hok
      · rw [if_neg hall] at h
        simp at h
    · exact walkSubdirs_dirs rest path pr h
termination_by structural l => l
end

theorem backToSlash_headDot {l : List Char} (h : headIsDotB l = true) :
    headIsDotB (backToSlash l) = true := by
  cases l with
  | nil => exact h
  | cons c cs =>
    rw [headIsDotB] at h
    have hc : c = '.' := by simpa using h
    subst hc
    rw [backToSlash, List.map_cons]
    rfl

theorem backToSlash_slashDot : ∀ {l : List Char}, hasSlashDot l = true →
    hasSlashDot (backToSlash l) = true := by
  intro l
  induction l with
  | nil => exact fun h => h
  | cons c cs ih =>
    intro h
    rw [hasSlashDot, Bool.or_eq_true] at h
    rw [backToSlash, List.map_cons, hasSlashDot, Bool.or_eq_true]
    rcases h with h | h
    · rw [Bool.and_eq_true] at h
      obtain ⟨hc, hdot⟩ := h
      have hc' : c = '/' := by simpa using hc
      subst hc'
      left
      rw [Bool.and_eq_true]
      refine ⟨by rfl, ?_⟩
      cases cs with
      | nil => exact hdot
      | cons b bs =>
        rw [headIsDotB] at hdot
        have hb : b = '.' := by simpa using hdot
        subst hb
        rw [List.map_cons, headIsDotB]
        rfl
    · right
      exact ih h

theorem allowed_raw_segments {d : String} (h : is_allowed_path d = true) :
    ∀ seg ∈ splitSlash d.data, headIsDotB seg = false := by
  have hun : is_allowed_path d =
      !(headIsDotB (backToSlash d.data) || hasSlashDot (backToSlash d.data)) := rfl
  rw [hun] at h
  simp only [Bool.not_eq_true', Bool.or_eq_false_iff] at h
  have hd : headIsDotB d.data = false := by
    by_contra hne
    rw [Bool.not_eq_false] at hne
    rw [backToSlash_headDot hne] at h
    exact absurd h.1 (by simp)
  have hs : hasSlashDot d.data = false := by
    by_contra hne
    rw [Bool.not_eq_false] at hne
    rw [backToSlash_slashDot hne] at h
    exact absurd h.2 (by simp)
  obtain ⟨s0, ss, hsplit, hhead, hslash⟩ := splitSlash_spec d.data
  rw [hsplit]
  intro seg hseg
  rcases List.mem_cons.mp hseg with rfl | hseg
  · rw [← hhead]
    exact hd
  · have hany : ss.any headIsDotB = false := by rw [← hslash]; exact hs
    simpa using List.any_eq_false.mp hany seg hseg

theorem splitSlash_append : ∀ (a b : List Char),
    splitSlash (a ++ '/' :: b) = splitSlash a ++ splitSlash b := by
  intro a b
  induction a with
  | nil =>
    show [] :: splitSlash b = [[]] ++ splitSlash b
    rfl
  | cons c cs ih =>
    by_cases hc : c = '/'
    · subst hc
      rw [List.cons_append]
      show [] :: splitSlash (cs ++ '/' :: b) = ([] :: splitSlash cs) ++ splitSlash b
      rw [ih]
      rfl
    · obtain ⟨s, ss, hsplit, -, -⟩ := splitSlash_spec cs
      rw [List.cons_append, splitSlash, if_neg hc, ih, hsplit]
      rw [splitSlash, if_neg hc, hsplit]
      rfl

theorem joinSlash_segments : ∀ (strs : List String),
    (∀ s ∈ strs, is_allowed_path s = true) →
    ∀ seg ∈ splitSlash (joinSlash strs), headIsDotB seg = false := by
  intro strs
  induction strs with
  | nil =>
    intro _ seg hseg
    rw [joinSlash, splitSlash, List.mem_singleton] at hseg
    subst hseg
    rfl
  | cons s rest ih =>
    intro hall seg hseg
    cases rest with
    | nil =>
      rw [joinSlash] at hseg
      exact allowed_raw_segments (hall s (List.mem_cons_self _ _)) seg hseg
    | cons t rest2 =>
      rw [show joinSlash (s :: t :: rest2) = s.data ++ '/' :: joinSlash (t :: rest2) from rfl,
        splitSlash_append] at hseg
      rcases List.mem_append.mp hseg with h | h
      · exact allowed_raw_segments (hall s (List.mem_cons_self _ _)) seg h
      · exact ih (fun x hx => hall x (List.mem_cons_of_mem _ hx)) seg h

/-- C7: the containment check `is_allowed_path` accepts a path iff no
`/`-segment of it (after the `\` → `/` translation the code performs) starts
with `.`; and the scanner enforces it by pruning before descent: every record
yielded by `_listdir` has a relative path in which no segment — directory
name or filename — starts with `.`. -/
theorem C7_dot_segments :
    (∀ s : String, is_allowed_path s = true ↔
      ∀ seg ∈ splitSlash (backToSlash s.data), headIsDotB seg = false) ∧
    (∀ (t : DirTree) (pr : List String × String), pr ∈ _listdir t →
      ∀ seg ∈ splitSlash (relOf pr).data, headIsDotB seg = false) := by
  refine ⟨is_allowed_path_iff, ?_⟩
  intro t pr hmem seg hseg
  unfold _listdir at hmem
  rw [List.mem_filter] at hmem
  obtain ⟨hwalk, hyield⟩ := hmem
  have hdirs : ∀ d ∈ pr.1, is_allowed_path d = true := by
    intro d hd
    rcases walkFiles_dirs t [] pr hwalk d hd with h | h
    · simp at h
    · exact h
  have hfile : is_allowed_path pr.2 = true := by
    unfold yieldsFile at hyield
    exact ((Bool.and_eq_true _ _).mp hyield).1
  refine joinSlash_segments (pr.1 ++ [pr.2]) ?_ seg hseg
  intro x hx
  rcases List.mem_append.mp hx with h | h
  · exact hdirs x h
  · rw [List.mem_singleton] at h
    subst h
    exact hfile

theorem C7_witness :
    is_allowed_path "a/b" = true ∧
    headIsDotB "pkgA-1.0.tar.gz".data = false :=
  ⟨(C7_dot_segments.1 "a/b").mpr (by decide),
   C7_dot_segments.2
     (.node ["pkgA-1.0.tar.gz"] (.cons ".hidden" (.node ["pkgB-2.0.tar.gz"] .nil) .nil))
     ([], "pkgA-1.0.tar.gz") (by decide) "pkgA-1.0.tar.gz".data (by decide)⟩

theorem takeWhile_append_all {p : Char → Bool} :
    ∀ {a b : List Char}, (∀ x ∈ a, p x = true) →
      (a ++ b).takeWhile p = a ++ b.takeWhile p := by
  intro a
  induction a with
  | nil => intro b _; rfl
  | cons x xs ih =>
    intro b h
    rw [List.cons_append, List.takeWhile_cons, if_pos (h x (List.mem_cons_self _ _)),
      List.cons_append, ih (fun y hy => h y (List.mem_cons_of_mem _ hy))]

theorem basenameC_append (t m : List Char) (hm : ∀ x ∈ m, x ≠ '/') :
    basenameC (t ++ m) = basenameC t ++ m := by
  unfold basenameC
  rw [List.reverse_append,
    takeWhile_append_all (fun x hx => decide_eq_true (hm x (List.mem_reverse.mp hx))),
    List.reverse_append, List.reverse_reverse]

theorem isSuffixOf_append_self (a b : List Char) : b.isSuffixOf (a ++ b) = true := by
  rw [List.isSuffixOf_iff_suffix]
  exact List.suffix_append a b

theorem endsWith_snoc_false {X : List Char} {c : Char} (hc : c ∉ ".asc".data) :
    endsWith ".asc".data (X ++ [c]) = false := by
  by_contra hne
  rw [Bool.not_eq_false, endsWith, List.isSuffixOf_iff_suffix] at hne
  obtain ⟨pre, hpre⟩ := hne
  have h1 : (pre ++ ".asc".data).getLast? = some 'c' := by
    rw [show (".asc".data : List Char) = ['.', 'a', 's'] ++ ['c'] from rfl,
      ← List.append_assoc]
    exact List.getLast?_concat _
  rw [hpre, List.getLast?_concat] at h1
  have : c = 'c' := by simpa using h1
  subst this
  exact hc (by decide)

theorem rstrip_snoc_asc {X : List Char} {c : Char} (hc : c ∉ ".asc".data) :
    pyRstrip ".asc".data ((X ++ [c]) ++ ".asc".data) = X ++ [c] := by
  unfold pyRstrip
  rw [List.reverse_append]
  rw [show (".asc".data : List Char).reverse = ['c', 's', 'a', '.'] from rfl]
  rw [show (['c', 's', 'a', '.'] : List Char) ++ (X ++ [c]).reverse =
    'c' :: 's' :: 'a' :: '.' :: (X ++ [c]).reverse from rfl]
  rw [List.dropWhile_cons, if_pos (by decide), List.dropWhile_cons, if_pos (by decide),
    List.dropWhile_cons, if_pos (by decide), List.dropWhile_cons, if_pos (by decide)]
  rw [List.reverse_append]
  rw [show ([c] : List Char).reverse = [c] from rfl, List.singleton_append,
    List.dropWhile_cons, if_neg (by simpa using hc)]
  rw [List.reverse_cons, List.reverse_reverse]

/-- C4 (amended): for a filename ending in `.asc` whose character just before
the suffix is not itself one of `.`, `a`, `s`, `c` (and is not a path
separator), the guesser behaves as if exactly the four-character `.asc`
suffix were removed.  (The code uses `str.rstrip(".asc")`, which strips a
maximal trailing run of characters drawn from that set, so in general more
than the suffix can be removed — see the counterexample.) -/
theorem C4_asc_strip (t : List Char) (c : Char)
    (hc : c ∉ ".asc".data) (hslash : c ≠ '/') :
    guess_pkgname_and_version (String.mk (t ++ c :: ".asc".data)) =
      guess_pkgname_and_version (String.mk (t ++ [c])) := by
  have hm1 : ∀ x ∈ (c :: ".asc".data), x ≠ '/' := by
    intro x hx
    rcases List.mem_cons.mp hx with rfl | hx
    · exact hslash
    · intro he
      subst he
      revert hx
      decide
  have hb1 := basenameC_append t (c :: ".asc".data) hm1
  have hm2 : ∀ x ∈ [c], x ≠ '/' := by
    intro x hx
    rw [List.mem_singleton] at hx
    subst hx
    exact hslash
  have hb2 := basenameC_append t [c] hm2
  have hsnoc : basenameC t ++ c :: ".asc".data = (basenameC t ++ [c]) ++ ".asc".data := by
    simp
  unfold guess_pkgname_and_version
  rw [show (String.mk (t ++ c :: ".asc".data)).data = t ++ c :: ".asc".data from rfl,
    show (String.mk (t ++ [c])).data = t ++ [c] from rfl, hb1, hb2, hsnoc]
  have hend1 : endsWith ".asc".data ((basenameC t ++ [c]) ++ ".asc".data) = true :=
    isSuffixOf_append_self _ _
  show guessAfterAsc
      (if endsWith ".asc".data (basenameC t ++ [c] ++ ".asc".data) = true
        then pyRstrip ".asc".data (basenameC t ++ [c] ++ ".asc".data)
        else basenameC t ++ [c] ++ ".asc".data) =
    guessAfterAsc
      (if endsWith ".asc".data (basenameC t ++ [c]) = true
        then pyRstrip ".asc".data (basenameC t ++ [c])
        else basenameC t ++ [c])
  rw [hend1, endsWith_snoc_false hc, if_pos rfl, if_neg (by simp), rstrip_snoc_asc hc]

theorem C4_witness :
    guess_pkgname_and_version (String.mk ("foo-1.0.tar.g".data ++ 'z' :: ".asc".data)) =
      guess_pkgname_and_version (String.mk ("foo-1.0.tar.g".data ++ ['z'])) :=
  C4_asc_strip "foo-1.0.tar.g".data 'z' (by decide) (by decide)

/-- C4, counterexample to the claim as stated: `"foo-1.0.tar.gzc.asc"` ends in
`.asc`, but `rstrip(".asc")` strips the whole trailing run of characters from
the set `{., a, s, c}` — here `c.asc` — so the guesser classifies
`"foo-1.0.tar.gz"` and succeeds, while on the filename with exactly the
four-character `.asc` suffix removed (`"foo-1.0.tar.gzc"`) it finds no
archive suffix and returns the bare no-match value. -/
theorem C4_counterexample :
    endsWith ".asc".data "foo-1.0.tar.gzc.asc".data = true ∧
    guess_pkgname_and_version "foo-1.0.tar.gzc.asc" ≠
      guess_pkgname_and_version "foo-1.0.tar.gzc" ∧
    guess_pkgname_and_version "foo-1.0.tar.gzc.asc" = .pair (some "foo") (some "1.0") ∧
    guess_pkgname_and_version "foo-1.0.tar.gzc" = .none_ := by
  refine ⟨by decide, by decide, by decide, by decide⟩

/-- The first character is an ASCII digit. -/
def headDigitB : List Char → Bool
  | [] => false
  | c :: _ => isDigitC c

/-- No occurrence of `-` immediately followed by a digit (the condition under
which the lazy `name` group of the wheel pattern cannot stop early). -/
def noDashDigit : List Char → Bool
  | [] => true
  | c :: cs => !(c = '-' && headDigitB cs) && noDashDigit cs

/-- Assemble a filename of the wheel grammar
`name-version(-build)?-pythontag-abitag-platformtag.whl`. -/
def wheelStr (name ver : String) (build : Option String) (py abi plat : String) : String :=
  match build with
  | none => name ++ "-" ++ ver ++ "-" ++ py ++ "-" ++ abi ++ "-" ++ plat ++ ".whl"
  | some b => name ++ "-" ++ ver ++ "-" ++ b ++ "-" ++ py ++ "-" ++ abi ++ "-" ++ plat ++ ".whl"

theorem splitAtDashes_sound : ∀ (l : List Char) (p : List Char × List Char),
    p ∈ splitAtDashes l → p.1 ++ '-' :: p.2 = l := by
  intro l
  induction l with
  | nil => intro p hp; simp [splitAtDashes] at hp
  | cons c cs ih =>
    intro p hp
    rw [splitAtDashes] at hp
    rcases List.mem_append.mp hp with h | h
    · by_cases hc : c = '-'
      · subst hc
        rw [if_pos rfl, List.mem_singleton] at h
        subst h
        rfl
      · rw [if_neg hc] at h
        simp at h
    · rw [List.mem_map] at h
      obtain ⟨q, hq, rfl⟩ := h
      have := ih q hq
      simpa using this

theorem splitAtDashes_nodash : ∀ {l : List Char}, '-' ∉ l → splitAtDashes l = [] := by
  intro l
  induction l with
  | nil => intro _; rfl
  | cons c cs ih =>
    intro h
    have hc : c ≠ '-' := fun he => h (he ▸ List.mem_cons_self _ _)
    rw [splitAtDashes, if_neg hc, ih (fun hm => h (List.mem_cons_of_mem _ hm))]
    rfl

theorem splitAtDashes_append : ∀ (a b : List Char),
    splitAtDashes (a ++ b) =
      (splitAtDashes a).map (fun p => (p.1, p.2 ++ b)) ++
        (splitAtDashes b).map (fun p => (a ++ p.1, p.2)) := by
  intro a b
  induction a with
  | nil => simp [splitAtDashes]
  | cons c cs ih =>
    rw [List.cons_append, splitAtDashes, splitAtDashes, ih]
    by_cases hc : c = '-'
    · subst hc
      rw [if_pos rfl, if_pos rfl]
      simp [List.map_map, Function.comp_def]
    · rw [if_neg hc, if_neg hc]
      simp [List.map_map, Function.comp_def]

theorem mem_splitAtDashes_sep : ∀ (a b : List Char), (a, b) ∈ splitAtDashes (a ++ '-' :: b) := by
  intro a b
  induction a with
  | nil =>
    rw [List.nil_append, splitAtDashes, if_pos rfl]
    exact List.mem_append_left _ (List.mem_singleton.mpr rfl)
  | cons c cs ih =>
    rw [List.cons_append, splitAtDashes]
    refine List.mem_append_right _ ?_
    rw [List.mem_map]
    exact ⟨(cs, b), ih, rfl⟩

theorem noDashDigit_split {l : List Char} (h : noDashDigit l = true) :
    ∀ p ∈ splitAtDashes l, headDigitB p.2 = false := by
  induction l with
  | nil => intro p hp; simp [splitAtDashes] at hp
  | cons c cs ih =>
    rw [noDashDigit, Bool.and_eq_true, Bool.not_eq_true', Bool.and_eq_false_iff] at h
    intro p hp
    rw [splitAtDashes] at hp
    rcases List.mem_append.mp hp with hm | hm
    · by_cases hc : c = '-'
      · subst hc
        rw [if_pos rfl, List.mem_singleton] at hm
        subst hm
        rcases h.1 with h1 | h1
        · simp at h1
        · exact h1
      · rw [if_neg hc] at hm
        simp at hm
    · rw [List.mem_map] at hm
      obtain ⟨q, hq, rfl⟩ := hm
      exact ih h.2 q hq

theorem endsWithWhl_concat (plat : List Char) (hp : plat ≠ []) :
    endsWithWhl (plat ++ ".whl".data) = true := by
  rw [endsWithWhl]
  have hlen : (plat ++ ".whl".data).length = plat.length + 4 := by simp
  rw [Bool.and_eq_true]
  constructor
  · rw [decide_eq_true_eq, hlen]
    have := List.length_pos.mpr hp
    omega
  · rw [hlen, show plat.length + 4 - 4 = plat.length from by omega, List.drop_left]
    simp

theorem papWhl_sep (py abi platWhl : List Char) (hpy : py ≠ []) (habi : abi ≠ [])
    (hwhl : endsWithWhl platWhl = true) :
    papWhl (py ++ '-' :: (abi ++ '-' :: platWhl)) = true := by
  rw [papWhl, List.any_eq_true]
  refine ⟨(py, abi ++ '-' :: platWhl), mem_splitAtDashes_sep _ _, ?_⟩
  rw [Bool.and_eq_true]
  refine ⟨by simpa using hpy, ?_⟩
  rw [List.any_eq_true]
  refine ⟨(abi, platWhl), mem_splitAtDashes_sep _ _, ?_⟩
  rw [Bool.and_eq_true]
  exact ⟨by simpa using habi, hwhl⟩

theorem findBuild_hit (b pap : List Char) (hb : headDigitB b = true) (hnd : '-' ∉ b)
    (hpap : papWhl pap = true) :
    findBuild (b ++ '-' :: pap) = some b := by
  rw [findBuild, splitAtDashes_append b ('-' :: pap), splitAtDashes_nodash hnd]
  rw [splitAtDashes, if_pos rfl]
  cases b with
  | nil => exact absurd hb (by decide)
  | cons c bs =>
    rw [headDigitB] at hb
    simp only [List.map_nil, List.nil_append, List.map_cons, List.singleton_append,
      List.append_nil, List.findSome?_cons]
    simp [hb, hpap]

theorem findBuild_miss (pap : List Char) (c0 : Char) (rest : List Char)
    (hpap : pap = c0 :: rest) (hc0 : isDigitC c0 = false) :
    findBuild pap = none := by
  rw [findBuild, List.findSome?_eq_none_iff]
  intro p hp
  have hsound := splitAtDashes_sound pap p hp
  cases p1h : p.1 with
  | nil => rfl
  | cons d ds =>
    rw [p1h, hpap] at hsound
    have hd : d = c0 := by
      have := congrArg (fun l =>l.head?) hsound
      simpa using this
    subst hd
    show (if isDigitC d && papWhl p.2 then some (d :: ds) else none) = none
    rw [hc0]
    rfl

theorem wheelAfterVer_build (b pap : List Char) (hb : headDigitB b = true) (hnd : '-' ∉ b)
    (hpap : papWhl pap = true) :
    wheelAfterVer ('-' :: (b ++ '-' :: pap)) = some (some b) := by
  rw [wheelAfterVer, if_pos rfl, findBuild_hit b pap hb hnd hpap]

theorem wheelAfterVer_nobuild (pap : List Char) (c0 : Char) (rest : List Char)
    (hpap : pap = c0 :: rest) (hc0 : isDigitC c0 = false) (hp : papWhl pap = true) :
    wheelAfterVer ('-' :: pap) = some none := by
  rw [wheelAfterVer, if_pos rfl, findBuild_miss pap c0 rest hpap hc0, if_pos hp]

theorem verGo_through (tail : List Char) (bres : Option (List Char))
    (htail : wheelAfterVer tail = some bres) (hcount : 2 ≤ tail.count '-') :
    ∀ (vrest acc : List Char), '-' ∉ vrest →
      verGo acc (vrest ++ tail) = some (acc.reverse ++ vrest, bres) := by
  intro vrest
  induction vrest with
  | nil =>
    intro acc _
    cases tail with
    | nil => rw [wheelAfterVer] at htail; exact absurd htail (by simp)
    | cons c cs =>
      rw [List.nil_append, verGo, htail, List.append_nil]
  | cons v vr ih =>
    intro acc hnd
    have hv : v ≠ '-' := fun he => hnd (he ▸ List.mem_cons_self _ _)
    have hne : (v :: (vr ++ tail)) ≠ ".dist-info".data := by
      intro he
      have hc := congrArg (List.count '-') he
      rw [show (".dist-info".data : List Char).count '-' = 1 from by decide] at hc
      have hge : tail.count '-' ≤ (v :: (vr ++ tail)).count '-' := by
        rw [List.count_cons, List.count_append]
        omega
      omega
    have hstep : wheelAfterVer (v :: (vr ++ tail)) = none := by
      rw [wheelAfterVer, if_neg hv, if_neg hne]
    rw [List.cons_append, verGo, hstep]
    rw [ih (v :: acc) (fun hm => hnd (List.mem_cons_of_mem _ hm))]
    simp

theorem verTrials_through (tail : List Char) (bres : Option (List Char))
    (htail : wheelAfterVer tail = some bres) (hcount : 2 ≤ tail.count '-')
    (ver : List Char) (hd : headDigitB ver = true) (hnd : '-' ∉ ver) :
    verTrials (ver ++ tail) = some (ver, bres) := by
  cases ver with
  | nil => exact absurd hd (by decide)
  | cons d vrest =>
    rw [headDigitB] at hd
    rw [List.cons_append, verTrials, if_pos hd,
      verGo_through tail bres htail hcount vrest [d]
        (fun hm => hnd (List.mem_cons_of_mem _ hm))]
    rfl

theorem findSome?_append_none {α β : Type} (f : α → Option β) :
    ∀ (l₁ l₂ : List α), (∀ x ∈ l₁, f x = none) →
      (l₁ ++ l₂).findSome? f = l₂.findSome? f := by
  intro l₁
  induction l₁ with
  | nil => intro l₂ _; rfl
  | cons a l ih =>
    intro l₂ h
    rw [List.cons_append, List.findSome?_cons, h a (List.mem_cons_self _ _)]
    exact ih l₂ (fun x hx => h x (List.mem_cons_of_mem _ hx))

theorem wheelMatch_full (name rest0 ver : List Char) (bres : Option (List Char))
    (hname : name ≠ []) (hnd : noDashDigit name = true)
    (hvt : verTrials rest0 = some (ver, bres)) :
    wheelMatch (name ++ '-' :: rest0) = some (name, ver, bres) := by
  rw [wheelMatch, splitAtDashes_append name ('-' :: rest0)]
  rw [show splitAtDashes ('-' :: rest0) =
      ([], rest0) :: (splitAtDashes rest0).map (fun p => ('-' :: p.1, p.2)) from by
    rw [splitAtDashes, if_pos rfl]
    rfl]
  rw [List.map_cons]
  rw [findSome?_append_none _ _ _ ?hA]
  case hA =>
    intro p hp
    rw [List.mem_map] at hp
    obtain ⟨q, hq, rfl⟩ := hp
    have hy : headDigitB q.2 = false := noDashDigit_split hnd q hq
    show (if (q.1, q.2 ++ '-' :: rest0).1.isEmpty then none
      else match verTrials (q.1, q.2 ++ '-' :: rest0).2 with
        | some (v, b) => some ((q.1, q.2 ++ '-' :: rest0).1, v, b)
        | none => none) = none
    by_cases hq1 : q.1.isEmpty
    · rw [if_pos hq1]
    · rw [if_neg hq1]
      have hvt2 : verTrials (q.2 ++ '-' :: rest0) = none := by
        cases hq2 : q.2 with
        | nil =>
          rw [List.nil_append, verTrials, if_neg (by decide : ¬(isDigitC '-' = true))]
        | cons d ys =>
          rw [hq2, headDigitB] at hy
          rw [List.cons_append, verTrials, if_neg (by rw [hy]; exact Bool.false_ne_true)]
      rw [hvt2]
  rw [List.findSome?_cons]
  have hne : name.isEmpty = false := by
    cases name with
    | nil => exact absurd rfl hname
    | cons a l => rfl
  simp [hne, hvt]

theorem startsWithDigit_eq (s : String) : startsWithDigit s = headDigitB s.data := rfl

theorem data_ne_nil {s : String} (h : s ≠ "") : s.data ≠ [] := by
  intro he
  apply h
  have hs : s = String.mk s.data := rfl
  rw [hs, he]

theorem basenameC_self {l : List Char} (h : '/' ∉ l) : basenameC l = l := by
  unfold basenameC
  have hall : ∀ x ∈ l.reverse, (fun c => decide (c ≠ '/')) x = true := by
    intro x hx
    rw [List.mem_reverse] at hx
    have hne : x ≠ '/' := fun he => h (he ▸ hx)
    simp [hne]
  have := takeWhile_append_all (b := []) hall
  rw [List.append_nil, List.takeWhile_nil, List.append_nil] at this
  rw [this, List.reverse_reverse]

theorem guess_on_whl (s : String) (X : List Char) (hdata : s.data = X ++ ".whl".data)
    (hsl : '/' ∉ X ++ ".whl".data) :
    guess_pkgname_and_version s = _guess_pkgname_and_version_wheel (X ++ ".whl".data) := by
  unfold guess_pkgname_and_version
  rw [hdata, basenameC_self hsl]
  have hasc : endsWith ".asc".data (X ++ ".whl".data) = false := by
    rw [show (X ++ ".whl".data) = (X ++ ['.', 'w', 'h']) ++ ['l'] from by simp]
    exact endsWith_snoc_false (by decide)
  have hwhl : endsWith ".whl".data (X ++ ".whl".data) = true := isSuffixOf_append_self _ _
  show guessAfterAsc (if endsWith ".asc".data (X ++ ".whl".data) = true
      then pyRstrip ".asc".data (X ++ ".whl".data) else X ++ ".whl".data) = _
  rw [hasc, if_neg (by simp), guessAfterAsc, if_pos hwhl]

theorem mk_data (s : String) : String.mk s.data = s := rfl

theorem not_mem_cons_append {c a : Char} {l₁ l₂ : List Char}
    (h1 : c ∉ l₁) (hne : c ≠ a) (h2 : c ∉ l₂) : c ∉ l₁ ++ a :: l₂ := by
  intro hm
  rcases List.mem_append.mp hm with hm | hm
  · exact h1 hm
  · rcases List.mem_cons.mp hm with hm | hm
    · exact hne hm
    · exact h2 hm

theorem not_mem_append2 {c : Char} {l₁ l₂ : List Char}
    (h1 : c ∉ l₁) (h2 : c ∉ l₂) : c ∉ l₁ ++ l₂ := by
  intro hm
  rcases List.mem_append.mp hm with hm | hm
  · exact h1 hm
  · exact h2 hm

/-- C6 (amended): for every filename assembled from the wheel grammar
`name-version(-build)?-pythontag-abitag-platformtag.whl` in which the
components satisfy the pattern's own character conditions and the ambiguity
of the grammar is excluded — the name is nonempty and contains no `-`
immediately followed by a digit, the version starts with a digit (as the
`ver` group of `wheel_file_re` requires) and contains no `-`, the build tag
(when present) starts with a digit and contains no `-`, the python tag is
nonempty and does not start with a digit, the abi and platform tags are
nonempty, and no component contains a path separator — the guesser returns
`(name, version)` without a build tag and `(name, version + "-" + build)`
with one. -/
theorem C6_wheel_guess (name ver py abi plat : String) (build : Option String)
    (hname : name ≠ "") (hnd : noDashDigit name.data = true) (hns : '/' ∉ name.data)
    (hver : startsWithDigit ver = true) (hvnd : '-' ∉ ver.data) (hvs : '/' ∉ ver.data)
    (hb : ∀ b, build = some b → startsWithDigit b = true ∧ '-' ∉ b.data ∧ '/' ∉ b.data)
    (hpy : py ≠ "") (hpyd : startsWithDigit py = false) (hpys : '/' ∉ py.data)
    (habi : abi ≠ "") (habis : '/' ∉ abi.data)
    (hplat : plat ≠ "") (hplats : '/' ∉ plat.data) :
    guess_pkgname_and_version (wheelStr name ver build py abi plat) =
      .pair (some name)
        (some (match build with | none => ver | some b => ver ++ "-" ++ b)) := by
  have hpapwhl : papWhl (py.data ++ '-' :: (abi.data ++ '-' :: (plat.data ++ ".whl".data))) = true :=
    papWhl_sep _ _ _ (data_ne_nil hpy) (data_ne_nil habi)
      (endsWithWhl_concat _ (data_ne_nil hplat))
  have hpap0 : ∃ c0 r0,
      py.data ++ '-' :: (abi.data ++ '-' :: (plat.data ++ ".whl".data)) = c0 :: r0 ∧
        isDigitC c0 = false := by
    cases hp : py.data with
    | nil => exact absurd hp (data_ne_nil hpy)
    | cons c cs =>
      refine ⟨c, cs ++ '-' :: (abi.data ++ '-' :: (plat.data ++ ".whl".data)), by simp, ?_⟩
      rw [startsWithDigit_eq, hp, headDigitB] at hpyd
      exact hpyd
  have hslpap : '/' ∉ py.data ++ '-' :: (abi.data ++ '-' :: (plat.data ++ ".whl".data)) :=
    not_mem_cons_append hpys (by decide)
      (not_mem_cons_append habis (by decide)
        (not_mem_append2 hplats (by decide)))
  cases build with
  | none =>
    obtain ⟨c0, r0, hpape, hc0⟩ := hpap0
    have htail : wheelAfterVer
        ('-' :: (py.data ++ '-' :: (abi.data ++ '-' :: (plat.data ++ ".whl".data)))) =
          some none :=
      wheelAfterVer_nobuild _ c0 r0 hpape hc0 hpapwhl
    have hcount : 2 ≤
        ('-' :: (py.data ++ '-' :: (abi.data ++ '-' :: (plat.data ++ ".whl".data)))).count '-' := by
      simp [List.count_cons, List.count_append]
      omega
    have hvt : verTrials (ver.data ++
        '-' :: (py.data ++ '-' :: (abi.data ++ '-' :: (plat.data ++ ".whl".data)))) =
          some (ver.data, none) :=
      verTrials_through _ _ htail hcount ver.data (by rw [← startsWithDigit_eq]; exact hver) hvnd
    have hwm := wheelMatch_full name.data _ ver.data none (data_ne_nil hname) hnd hvt
    have hXfull : (name.data ++ '-' :: (ver.data ++ '-' :: (py.data ++ '-' ::
        (abi.data ++ '-' :: plat.data)))) ++ ".whl".data =
        name.data ++ '-' :: (ver.data ++
          '-' :: (py.data ++ '-' :: (abi.data ++ '-' :: (plat.data ++ ".whl".data)))) := by
      simp
    have hdata : (wheelStr name ver none py abi plat).data =
        (name.data ++ '-' :: (ver.data ++ '-' :: (py.data ++ '-' ::
          (abi.data ++ '-' :: plat.data)))) ++ ".whl".data := by
      rw [hXfull]
      have hdash : ("-" : String).data = ['-'] := rfl
      simp [wheelStr, String.data_append, hdash]
    have hsl : '/' ∉ (name.data ++ '-' :: (ver.data ++ '-' :: (py.data ++ '-' ::
        (abi.data ++ '-' :: plat.data)))) ++ ".whl".data := by
      rw [hXfull]
      exact not_mem_cons_append hns (by decide)
        (not_mem_cons_append hvs (by decide) hslpap)
    rw [guess_on_whl _ _ hdata hsl, hXfull, _guess_pkgname_and_version_wheel, hwm]
  | some b =>
    obtain ⟨hbd, hbnd, hbs⟩ := hb b rfl
    have htail : wheelAfterVer ('-' :: (b.data ++ '-' ::
        (py.data ++ '-' :: (abi.data ++ '-' :: (plat.data ++ ".whl".data))))) =
          some (some b.data) :=
      wheelAfterVer_build _ _ (by rw [← startsWithDigit_eq]; exact hbd) hbnd hpapwhl
    have hcount : 2 ≤ ('-' :: (b.data ++ '-' ::
        (py.data ++ '-' :: (abi.data ++ '-' :: (plat.data ++ ".whl".data))))).count '-' := by
      simp [List.count_cons, List.count_append]
      omega
    have hvt : verTrials (ver.data ++ '-' :: (b.data ++ '-' ::
        (py.data ++ '-' :: (abi.data ++ '-' :: (plat.data ++ ".whl".data))))) =
          some (ver.data, some b.data) :=
      verTrials_through _ _ htail hcount ver.data (by rw [← startsWithDigit_eq]; exact hver) hvnd
    have hwm := wheelMatch_full name.data _ ver.data (some b.data) (data_ne_nil hname) hnd hvt
    have hXfull : (name.data ++ '-' :: (ver.data ++ '-' :: (b.data ++ '-' ::
        (py.data ++ '-' :: (abi.data ++ '-' :: plat.data))))) ++ ".whl".data =
        name.data ++ '-' :: (ver.data ++ '-' :: (b.data ++ '-' ::
          (py.data ++ '-' :: (abi.data ++ '-' :: (plat.data ++ ".whl".data))))) := by
      simp
    have hdata : (wheelStr name ver (some b) py abi plat).data =
        (name.data ++ '-' :: (ver.data ++ '-' :: (b.data ++ '-' ::
          (py.data ++ '-' :: (abi.data ++ '-' :: plat.data))))) ++ ".whl".data := by
      rw [hXfull]
      have hdash : ("-" : String).data = ['-'] := rfl
      simp [wheelStr, String.data_append, hdash]
    have hsl : '/' ∉ (name.data ++ '-' :: (ver.data ++ '-' :: (b.data ++ '-' ::
        (py.data ++ '-' :: (abi.data ++ '-' :: plat.data))))) ++ ".whl".data := by
      rw [hXfull]
      exact not_mem_cons_append hns (by decide)
        (not_mem_cons_append hvs (by decide)
          (not_mem_cons_append hbs (by decide) hslpap))
    have hbne : b.data.isEmpty = false := by
      cases hbb : b.data with
      | nil =>
        rw [startsWithDigit_eq, hbb] at hbd
        exact absurd hbd (by decide)
      | cons x xs => rfl
    rw [guess_on_whl _ _ hdata hsl, hXfull, _guess_pkgname_and_version_wheel, hwm]
    dsimp only
    rw [hbne]
    simp only [Bool.false_eq_true, if_false]
    have hdb : (ver ++ "-" ++ b).data = ver.data ++ '-' :: b.data := by
      simp [String.data_append]
    rw [← hdb]

theorem C6_witness :
    guess_pkgname_and_version (wheelStr "sampleproject" "1.2.0" (some "1") "py3" "none" "any") =
      .pair (some "sampleproject") (some ("1.2.0" ++ "-" ++ "1")) :=
  C6_wheel_guess "sampleproject" "1.2.0" "py3" "none" "any" (some "1")
    (by decide) (by decide) (by decide) (by decide) (by decide) (by decide)
    (fun b hb => by cases hb; exact ⟨by decide, by decide, by decide⟩)
    (by decide) (by decide) (by decide) (by decide) (by decide) (by decide) (by decide)

/-- C6, counterexample to the claim as stated: the wheel grammar is ambiguous,
and the regex engine's lazy `name` group picks the leftmost viable split.
`"a-1b-2-py3-none-any.whl"` matches the grammar with `name = "a-1b"`,
`version = "2"` and no build tag, yet the guesser does not return
`("a-1b", "2")` — it returns `("a", "1b-2")` (name `"a"`, version `"1b"`,
build `"2"`). -/
theorem C6_counterexample :
    wheelStr "a-1b" "2" none "py3" "none" "any" = "a-1b-2-py3-none-any.whl" ∧
    guess_pkgname_and_version "a-1b-2-py3-none-any.whl" ≠
      .pair (some "a-1b") (some "2") ∧
    guess_pkgname_and_version "a-1b-2-py3-none-any.whl" = .pair (some "a") (some "1b-2") := by
  refine ⟨by decide, by decide, by decide⟩
